import Mathlib

/-!
Shallow embedding of the analysis functions of fanal/ana/ana_functions.py
(get_new_energies, get_voxel_track_relations, process_tracks) and proofs
about them.

Modelling conventions:
* Python floats are modelled as rationals (ideal real arithmetic).
* The pandas DataFrame of event voxels is modelled as a list of Voxel
  records; the DataFrame index label of a row is its 0-based position in
  the list, so the index labels seen by iterrows/loc are the positions.
* The source compares np.sqrt of a sum of squares against the running
  minimum (initially 1000).  Square roots are strictly monotone on
  nonnegative reals, so every comparison of distances in the source is
  equivalent to the corresponding comparison of squared distances, with
  the initial bound 1000 becoming 1000000.  The embedding therefore
  carries squared distances throughout.
* networkx Graph tracks are used by the source only through iteration
  over their nodes, so a track is modelled as the list of its nodes in
  iteration order; the external track-length function is a parameter.
* np.nan, the "no track" marker appended for negligible voxels, is
  modelled as (none : Option Nat); a recorded track index j is some j.
-/

structure Voxel where
  X : ℚ
  Y : ℚ
  Z : ℚ
  E : ℚ
  negli : Bool
deriving DecidableEq, Repr

def vdef : Voxel := ⟨0, 0, 0, 0, false⟩

def vget (vs : List Voxel) (i : ℕ) : Voxel := vs.getD i vdef

def sqDist (a b : Voxel) : ℚ :=
  (a.X - b.X) ^ 2 + (a.Y - b.Y) ^ 2 + (a.Z - b.Z) ^ 2

/-- Pairing of each list element with its index label, starting at n:
the view of a DataFrame produced by iterrows. -/
def idxd {α : Type} : ℕ → List α → List (ℕ × α)
  | _, [] => []
  | n, v :: vs => (n, v) :: idxd (n + 1) vs

/-- The inner loop of get_new_energies looking for the closest
non-negligible voxel of the voxel vi (of index i): it folds the running
(min_dist, closest_index) pair over all indexed voxels, updating when a
distinct, non-negligible voxel lies strictly closer than the running
minimum.  Distances are carried squared (see the header comment), so the
initial min_dist of 1000 is the squared bound 1000000. -/
def closestAux (vi : Voxel) (i : ℕ) : List (ℕ × Voxel) → ℚ × ℕ → ℚ × ℕ
  | [], acc => acc
  | p :: ps, acc =>
      closestAux vi i ps
        (if p.1 ≠ i ∧ p.2.negli = false ∧ sqDist vi p.2 < acc.1
         then (sqDist vi p.2, p.1) else acc)

/-- closest_index computed by get_new_energies for the voxel of index i:
starts at (1000², i) and scans every indexed voxel of the event. -/
def closestIndex (vs : List Voxel) (i : ℕ) : ℕ :=
  (closestAux (vget vs i) i (idxd 0 vs) (1000000, i)).2

/-- negl_neig_pairs of get_new_energies: for every negligible voxel
(in index order) the pair (its index, its closest_index). -/
def negl_neig_pairs (vs : List Voxel) : List (ℕ × ℕ) :=
  ((idxd 0 vs).filter (fun p => p.2.negli)).map (fun p => (p.1, closestIndex vs p.1))

/-- get_new_energies: the list of new energies of all incoming voxels, in
order.  A negligible voxel gets 0; a voxel appearing as a closest
neighbour gets its own energy plus the energies of the negligible voxels
paired with it; the rest keep their energies. -/
def get_new_energies (vs : List Voxel) : List ℚ :=
  (idxd 0 vs).map (fun p =>
    if p.2.negli then 0
    else if (negl_neig_pairs vs).any (fun q => q.2 == p.1) then
      p.2.E + (((negl_neig_pairs vs).filter (fun q => q.2 == p.1)).map
                 (fun q => (vget vs q.1).E)).sum
    else p.2.E)

/-- The energy routed to index j: the energies of the negligible voxels
whose closest_index is j. -/
def routedE (vs : List Voxel) (j : ℕ) : ℚ :=
  (((negl_neig_pairs vs).filter (fun q => q.2 == j)).map
    (fun q => (vget vs q.1).E)).sum

/-- The proximity hypothesis: every negligible voxel has some
non-negligible voxel strictly within the source's hard-coded 1000
length-unit bound (squared: 1000000). -/
def CloseEnough (vs : List Voxel) : Prop :=
  ∀ i, i < vs.length → (vget vs i).negli = true →
    ∃ j, j < vs.length ∧ (vget vs j).negli = false ∧
      sqDist (vget vs i) (vget vs j) < 1000000

/-- A node of a track graph: the source reads only X, Y, Z, E of nodes. -/
structure TNode where
  X : ℚ
  Y : ℚ
  Z : ℚ
  E : ℚ
deriving DecidableEq, Repr

/-- A track, as the source uses it: the list of its nodes in iteration
order (edges are only consumed by the external length function). -/
abbrev Track : Type := List TNode

/-- The inner node loop of get_voxel_track_relations: does some node of
the track have exactly this (X, Y, Z) position? -/
def trackHasPos (t : Track) (pos : ℚ × ℚ × ℚ) : Bool :=
  List.any t (fun n => decide ((n.X, n.Y, n.Z) = pos))

/-- The track loop of get_voxel_track_relations for one voxel position:
scan tracks in order (j is the index of the head track), return the
index of the first track containing a node at exactly this position
(the double break of the source), or none when no track matches. -/
def scanTracks (pos : ℚ × ℚ × ℚ) : List Track → ℕ → Option ℕ
  | [], _ => none
  | t :: ts, j => if trackHasPos t pos then some j else scanTracks pos ts (j + 1)

/-- The body of the voxel loop of get_voxel_track_relations: what gets
appended to voxel_tracks for one voxel — some none (np.nan) for a
negligible voxel, some (some j) for a significant voxel whose first
matching track is j, and nothing (none) for a significant voxel that
matches no track (the source then appends nothing). -/
def relate (ts : List Track) (v : Voxel) : Option (Option ℕ) :=
  if v.negli = false then
    match scanTracks (v.X, v.Y, v.Z) ts 0 with
    | some j => some (some j)
    | none => none
  else
    some none

/-- get_voxel_track_relations: voxel_tracks accumulated over the voxels
in order. -/
def get_voxel_track_relations (vs : List Voxel) (ts : List Track) : List (Option ℕ) :=
  vs.filterMap (relate ts)

/-- Track energy as computed by process_tracks: the sum of the energies
of the nodes of the track (iterating a networkx graph yields its nodes). -/
def trackE (t : Track) : ℚ := (List.map TNode.E t).sum

/-- Stable insertion of a scored track into a list: it goes after every
tuple of strictly larger energy and before the first tuple of smaller or
equal energy. -/
def insertDesc (x : ℚ × ℚ × Track) : List (ℚ × ℚ × Track) → List (ℚ × ℚ × Track)
  | [] => [x]
  | y :: ys => if y.1 ≤ x.1 then x :: y :: ys else y :: insertDesc x ys

/-- Stable sort by energy, descending: the semantics of Python
sorted(l, key=itemgetter(0), reverse=True).  Python sorted is the stable
sort for this comparison, and a stable sort's output is uniquely
determined by sortedness plus stability, which this insertion sort is
proved to satisfy below. -/
def sortDesc : List (ℚ × ℚ × Track) → List (ℚ × ℚ × Track)
  | [] => []
  | x :: xs => insertDesc x (sortDesc xs)

/-- The filtering loop of process_tracks: tracks whose energy reaches
the threshold, each annotated as (track_E, track_l, track), in input
order.  track_length is external to the source and passed here as tlen. -/
def survivingTracks (tlen : Track → ℚ) (ts : List Track) (track_Eth : ℚ) :
    List (ℚ × ℚ × Track) :=
  (ts.filter (fun t => decide (track_Eth ≤ trackE t))).map
    (fun t => (trackE t, tlen t, t))

/-- process_tracks: filter by energy threshold, then sort by energy,
descending and stable. -/
def process_tracks (tlen : Track → ℚ) (ts : List Track) (track_Eth : ℚ) :
    List (ℚ × ℚ × Track) :=
  sortDesc (survivingTracks tlen ts track_Eth)

/-! ## Helper lemmas about idxd -/

theorem idxd_length {α : Type} (n : ℕ) (l : List α) : (idxd n l).length = l.length := by
  induction l generalizing n with
  | nil => rfl
  | cons v vs ih => simp [idxd, ih]

theorem idxd_getElem? {α : Type} (n : ℕ) (l : List α) (j : ℕ) :
    (idxd n l)[j]? = l[j]?.map (fun a => (n + j, a)) := by
  induction l generalizing n j with
  | nil => simp [idxd]
  | cons v vs ih =>
    cases j with
    | zero => simp [idxd]
    | succ k =>
      simp only [idxd, List.getElem?_cons_succ, ih (n + 1) k]
      have h : n + 1 + k = n + (k + 1) := by omega
      rw [h]

theorem mem_idxd {α : Type} (n : ℕ) (l : List α) (p : ℕ × α) :
    p ∈ idxd n l ↔ ∃ j, ∃ h : j < l.length, p = (n + j, l[j]) := by
  induction l generalizing n with
  | nil => simp [idxd]
  | cons v vs ih =>
    simp only [idxd, List.mem_cons, ih (n + 1)]
    constructor
    · rintro (rfl | ⟨j, hj, rfl⟩)
      · exact ⟨0, by simp, by simp⟩
      · refine ⟨j + 1, by simpa using hj, ?_⟩
        have h : n + 1 + j = n + (j + 1) := by omega
        simp [h]
    · rintro ⟨j, hj, rfl⟩
      cases j with
      | zero => left; simp
      | succ k =>
        right
        refine ⟨k, by simpa using hj, ?_⟩
        have h : n + 1 + k = n + (k + 1) := by omega
        simp [h]

theorem idxd_map_snd {α : Type} (n : ℕ) (l : List α) :
    (idxd n l).map Prod.snd = l := by
  induction l generalizing n with
  | nil => rfl
  | cons v vs ih => simp [idxd, ih]

theorem idxd_pairwise_fst {α : Type} (n : ℕ) (l : List α) :
    (idxd n l).Pairwise (fun p q => p.1 < q.1) := by
  induction l generalizing n with
  | nil => exact List.Pairwise.nil
  | cons v vs ih =>
    refine List.Pairwise.cons ?_ (ih (n + 1))
    intro q hq
    rcases (mem_idxd (n + 1) vs q).mp hq with ⟨j, hj, rfl⟩
    simp
    omega

theorem vget_eq_getElem (vs : List Voxel) (j : ℕ) (h : j < vs.length) :
    vget vs j = vs[j] := by
  rw [vget, List.getD_eq_getElem vs vdef h]


/-- Membership in idxd 0, phrased with vget. -/
theorem mem_idxd_zero (vs : List Voxel) (p : ℕ × Voxel) :
    p ∈ idxd 0 vs ↔ p.1 < vs.length ∧ p.2 = vget vs p.1 := by
  rw [mem_idxd]
  constructor
  · rintro ⟨j, hj, rfl⟩
    exact ⟨by simpa using hj, by simpa using (vget_eq_getElem vs j hj).symm⟩
  · rintro ⟨h1, h2⟩
    refine ⟨p.1, h1, ?_⟩
    rw [vget_eq_getElem vs p.1 h1] at h2
    simp [← h2]

theorem idxd_map_getD (vs : List Voxel) (f : ℕ × Voxel → ℚ) (j : ℕ)
    (hj : j < vs.length) :
    ((idxd 0 vs).map f).getD j 0 = f (j, vget vs j) := by
  rw [List.getD_eq_getElem?_getD, List.getElem?_map, idxd_getElem? 0 vs j,
      List.getElem?_eq_getElem hj]
  simp [vget_eq_getElem vs j hj]

/-! ## The closest-neighbour search of get_new_energies -/

/-- Invariant of the fold of closestAux: the result is the starting
accumulator or stems from a valid (distinct, non-negligible) scanned
voxel strictly closer than the start; the running minimum never grows;
and the result is at most the distance of every valid scanned voxel. -/
theorem closestAux_spec (vi : Voxel) (i : ℕ) (L : List (ℕ × Voxel)) (acc : ℚ × ℕ) :
    (closestAux vi i L acc = acc ∨
      ∃ p ∈ L, p.1 ≠ i ∧ p.2.negli = false ∧
        closestAux vi i L acc = (sqDist vi p.2, p.1) ∧ sqDist vi p.2 < acc.1)
    ∧ (closestAux vi i L acc).1 ≤ acc.1
    ∧ ∀ p ∈ L, p.1 ≠ i → p.2.negli = false → (closestAux vi i L acc).1 ≤ sqDist vi p.2 := by
  induction L generalizing acc with
  | nil =>
    refine ⟨Or.inl rfl, le_refl _, ?_⟩
    intro p hp
    exact absurd hp (List.not_mem_nil p)
  | cons p ps ih =>
    by_cases hc : p.1 ≠ i ∧ p.2.negli = false ∧ sqDist vi p.2 < acc.1
    · have hstep : closestAux vi i (p :: ps) acc
        = closestAux vi i ps (sqDist vi p.2, p.1) := by
        simp [closestAux, if_pos hc]
      rcases ih (sqDist vi p.2, p.1) with ⟨h1, h2, h3⟩
      refine ⟨?_, ?_, ?_⟩
      · rcases h1 with h1 | ⟨q, hq, hqi, hqn, hqe, hqlt⟩
        · exact Or.inr ⟨p, List.mem_cons_self p ps, hc.1, hc.2.1, by rw [hstep, h1], hc.2.2⟩
        · exact Or.inr ⟨q, List.mem_cons_of_mem p hq, hqi, hqn, by rw [hstep, hqe],
            lt_trans hqlt hc.2.2⟩
      · rw [hstep]
        exact le_trans h2 (le_of_lt hc.2.2)
      · intro q hq hqi hqn
        rcases List.mem_cons.mp hq with rfl | hq'
        · rw [hstep]; exact h2
        · rw [hstep]; exact h3 q hq' hqi hqn
    · have hstep : closestAux vi i (p :: ps) acc = closestAux vi i ps acc := by
        simp [closestAux, if_neg hc]
      rcases ih acc with ⟨h1, h2, h3⟩
      refine ⟨?_, ?_, ?_⟩
      · rcases h1 with h1 | ⟨q, hq, hqi, hqn, hqe, hqlt⟩
        · exact Or.inl (by rw [hstep, h1])
        · exact Or.inr ⟨q, List.mem_cons_of_mem p hq, hqi, hqn, by rw [hstep, hqe], hqlt⟩
      · rw [hstep]; exact h2
      · intro q hq hqi hqn
        rcases List.mem_cons.mp hq with rfl | hq'
        · have hge : acc.1 ≤ sqDist vi q.2 := by
            by_contra hlt
            exact hc ⟨hqi, hqn, lt_of_not_le hlt⟩
          rw [hstep]
          exact le_trans h2 hge
        · rw [hstep]; exact h3 q hq' hqi hqn

/-- When some other non-negligible voxel lies strictly within the 1000
bound, closest_index is a valid, distinct, non-negligible index within
the bound, and it minimizes the distance among all such voxels. -/
theorem closestIndex_spec (vs : List Voxel) (i : ℕ)
    (hex : ∃ j, j < vs.length ∧ j ≠ i ∧ (vget vs j).negli = false ∧
      sqDist (vget vs i) (vget vs j) < 1000000) :
    closestIndex vs i < vs.length ∧ closestIndex vs i ≠ i ∧
    (vget vs (closestIndex vs i)).negli = false ∧
    sqDist (vget vs i) (vget vs (closestIndex vs i)) < 1000000 ∧
    ∀ j, j < vs.length → j ≠ i → (vget vs j).negli = false →
      sqDist (vget vs i) (vget vs (closestIndex vs i)) ≤ sqDist (vget vs i) (vget vs j) := by
  rcases hex with ⟨j, hjlen, hjne, hjsig, hjclose⟩
  rcases closestAux_spec (vget vs i) i (idxd 0 vs) (1000000, i) with ⟨h1, _, h3⟩
  have hjmem : ((j : ℕ), vget vs j) ∈ idxd 0 vs := by
    rw [mem_idxd_zero]; exact ⟨hjlen, rfl⟩
  have hmin : (closestAux (vget vs i) i (idxd 0 vs) (1000000, i)).1
      ≤ sqDist (vget vs i) (vget vs j) := h3 (j, vget vs j) hjmem hjne hjsig
  rcases h1 with h1 | ⟨p, hp, hpi, hpn, hpe, _⟩
  · rw [h1] at hmin
    exact absurd (lt_of_le_of_lt hmin hjclose) (lt_irrefl _)
  · rcases (mem_idxd_zero vs p).mp hp with ⟨hplen, hpv⟩
    have hci : closestIndex vs i = p.1 := by
      rw [closestIndex, hpe]
    have hdist : (closestAux (vget vs i) i (idxd 0 vs) (1000000, i)).1
        = sqDist (vget vs i) (vget vs (closestIndex vs i)) := by
      rw [hpe, hci, ← hpv]
    refine ⟨?_, ?_, ?_, ?_, ?_⟩
    · rw [hci]; exact hplen
    · rw [hci]; exact hpi
    · rw [hci, ← hpv]; exact hpn
    · rw [← hdist]
      exact lt_of_le_of_lt hmin hjclose
    · intro k hklen hkne hksig
      rw [← hdist]
      exact h3 (k, vget vs k) (by rw [mem_idxd_zero]; exact ⟨hklen, rfl⟩) hkne hksig

/-! ## The output of get_new_energies, entry by entry -/

theorem get_new_energies_length (vs : List Voxel) :
    (get_new_energies vs).length = vs.length := by
  rw [get_new_energies, List.length_map, idxd_length]

/-- Entry j of get_new_energies: 0 for a negligible voxel, own energy
plus routed energy otherwise.  (When no negligible voxel routes to j the
routed sum is empty, so the formula also covers the final else branch of
the source.) -/
theorem get_new_energies_getD (vs : List Voxel) (j : ℕ) (hj : j < vs.length) :
    (get_new_energies vs).getD j 0 =
      if (vget vs j).negli then 0 else (vget vs j).E + routedE vs j := by
  rw [get_new_energies, idxd_map_getD vs _ j hj]
  by_cases hneg : (vget vs j).negli
  · simp [hneg]
  · simp only [hneg, if_false, Bool.false_eq_true]
    by_cases hany : (negl_neig_pairs vs).any (fun q => q.2 == j) = true
    · simp [hany, routedE]
    · have hnil : (negl_neig_pairs vs).filter (fun q => q.2 == j) = [] := by
        rw [List.filter_eq_nil_iff]
        intro q hq
        exact fun hqj => hany (List.any_eq_true.mpr ⟨q, hq, hqj⟩)
      simp [hany, routedE, hnil]

/-! ## Summation helpers -/

theorem sum_map_ite_split {α : Type} (l : List α) (b : α → Bool) (f g : α → ℚ) :
    (l.map (fun x => if b x then f x else g x)).sum
      = ((l.filter b).map f).sum + ((l.filter (fun x => !b x)).map g).sum := by
  induction l with
  | nil => simp
  | cons x xs ih =>
    by_cases hb : b x
    · simp only [List.map_cons, List.sum_cons, ih, List.filter_cons, hb]
      simp [add_assoc]
    · have hb' : b x = false := by simpa using hb
      simp only [List.map_cons, List.sum_cons, ih, List.filter_cons, hb']
      simp only [Bool.not_false, if_true, if_false, Bool.false_eq_true, List.map_cons,
        List.sum_cons]
      ring

theorem sum_map_filter_split {α : Type} (l : List α) (b : α → Bool) (h : α → ℚ) :
    (l.map h).sum = ((l.filter b).map h).sum + ((l.filter (fun x => !b x)).map h).sum := by
  have := sum_map_ite_split l b h h
  simpa using this

theorem sum_map_zero_of_ne (S : List (ℕ × Voxel)) (j : ℕ) (c : ℚ)
    (h : ∀ p ∈ S, p.1 ≠ j) :
    (S.map (fun p => if p.1 = j then c else 0)).sum = 0 := by
  induction S with
  | nil => simp
  | cons p ps ih =>
    have hp : p.1 ≠ j := h p (List.mem_cons_self p ps)
    simp only [List.map_cons, List.sum_cons, if_neg hp, zero_add]
    exact ih (fun q hq => h q (List.mem_cons_of_mem p hq))

theorem sum_map_kron (S : List (ℕ × Voxel)) (hS : (S.map Prod.fst).Nodup) (j : ℕ)
    (hj : ∃ p ∈ S, p.1 = j) (c : ℚ) :
    (S.map (fun p => if p.1 = j then c else 0)).sum = c := by
  induction S with
  | nil => exact absurd hj (by simp)
  | cons p ps ih =>
    simp only [List.map_cons, List.nodup_cons] at hS
    by_cases hp : p.1 = j
    · have hrest : (ps.map (fun q => if q.1 = j then c else 0)).sum = 0 := by
        apply sum_map_zero_of_ne
        intro q hq hqj
        exact hS.1 (by rw [hp, ← hqj]; exact List.mem_map_of_mem Prod.fst hq)
      simp [hp, hrest]
    · rcases hj with ⟨q, hq, hqj⟩
      rcases List.mem_cons.mp hq with rfl | hq'
      · exact absurd hqj hp
      · simp only [List.map_cons, List.sum_cons, if_neg hp, zero_add]
        exact ih hS.2 ⟨q, hq', hqj⟩

theorem sum_fiberwise (L : List (ℕ × ℕ)) (S : List (ℕ × Voxel))
    (hS : (S.map Prod.fst).Nodup) (f : ℕ × ℕ → ℚ)
    (hL : ∀ q ∈ L, ∃ p ∈ S, p.1 = q.2) :
    (S.map (fun p => ((L.filter (fun q => q.2 == p.1)).map f).sum)).sum
      = (L.map f).sum := by
  induction L with
  | nil => simp
  | cons q L' ih =>
    have hstep : ∀ p : ℕ × Voxel,
        ((List.filter (fun r => r.2 == p.1) (q :: L')).map f).sum
          = (if p.1 = q.2 then f q else 0)
            + ((List.filter (fun r => r.2 == p.1) L').map f).sum := by
      intro p
      by_cases hq : q.2 = p.1
      · simp [List.filter_cons, hq]
      · have hq' : (q.2 == p.1) = false := by simpa using hq
        have hq'' : ¬(p.1 = q.2) := fun h => hq h.symm
        simp [List.filter_cons, hq', hq'']
    calc (S.map (fun p => ((List.filter (fun r => r.2 == p.1) (q :: L')).map f).sum)).sum
        = (S.map (fun p => (if p.1 = q.2 then f q else 0)
            + ((List.filter (fun r => r.2 == p.1) L').map f).sum)).sum := by
          exact congrArg List.sum (List.map_congr_left (fun p _ => hstep p))
      _ = (S.map (fun p => if p.1 = q.2 then f q else 0)).sum
            + (S.map (fun p => ((List.filter (fun r => r.2 == p.1) L').map f).sum)).sum := by
          exact List.sum_map_add
      _ = f q + (L'.map f).sum := by
          rw [sum_map_kron S hS q.2 (hL q (List.mem_cons_self q L')) (f q),
            ih (fun r hr => hL r (List.mem_cons_of_mem q hr))]
      _ = ((q :: L').map f).sum := by simp

/-! ## Energy conservation machinery -/

theorem get_new_energies_eq_map (vs : List Voxel) :
    get_new_energies vs
      = (idxd 0 vs).map (fun p => if p.2.negli then 0 else p.2.E + routedE vs p.1) := by
  rw [get_new_energies]
  apply List.map_congr_left
  intro p _
  by_cases hneg : p.2.negli
  · simp [hneg]
  · simp only [hneg, if_false, Bool.false_eq_true]
    by_cases hany : (negl_neig_pairs vs).any (fun q => q.2 == p.1) = true
    · simp [hany, routedE]
    · have hnil : (negl_neig_pairs vs).filter (fun q => q.2 == p.1) = [] := by
        rw [List.filter_eq_nil_iff]
        intro q hq
        exact fun hqj => hany (List.any_eq_true.mpr ⟨q, hq, hqj⟩)
      simp [hany, routedE, hnil]

theorem closestIndex_spec_of_close (vs : List Voxel) (H : CloseEnough vs) (i : ℕ)
    (hi : i < vs.length) (hneg : (vget vs i).negli = true) :
    closestIndex vs i < vs.length ∧ closestIndex vs i ≠ i ∧
    (vget vs (closestIndex vs i)).negli = false ∧
    sqDist (vget vs i) (vget vs (closestIndex vs i)) < 1000000 ∧
    ∀ j, j < vs.length → j ≠ i → (vget vs j).negli = false →
      sqDist (vget vs i) (vget vs (closestIndex vs i)) ≤ sqDist (vget vs i) (vget vs j) := by
  rcases H i hi hneg with ⟨j, hjlen, hjsig, hjclose⟩
  have hjne : j ≠ i := by
    intro h
    rw [h, hneg] at hjsig
    exact Bool.true_eq_false.mp hjsig
  exact closestIndex_spec vs i ⟨j, hjlen, hjne, hjsig, hjclose⟩

theorem negl_neig_pairs_mem (vs : List Voxel) (q : ℕ × ℕ)
    (hq : q ∈ negl_neig_pairs vs) :
    q.1 < vs.length ∧ (vget vs q.1).negli = true ∧ q.2 = closestIndex vs q.1 := by
  rw [negl_neig_pairs] at hq
  rcases List.mem_map.mp hq with ⟨r, hr, hrq⟩
  rcases List.mem_filter.mp hr with ⟨hridx, hrneg⟩
  rcases (mem_idxd_zero vs r).mp hridx with ⟨hrlen, hrv⟩
  rw [← hrq]
  exact ⟨hrlen, by rw [← hrv]; exact hrneg, rfl⟩

theorem mem_negl_neig_pairs (vs : List Voxel) (i : ℕ) (hi : i < vs.length)
    (hneg : (vget vs i).negli = true) :
    (i, closestIndex vs i) ∈ negl_neig_pairs vs := by
  rw [negl_neig_pairs]
  refine List.mem_map.mpr ⟨(i, vget vs i), List.mem_filter.mpr ⟨?_, ?_⟩, rfl⟩
  · rw [mem_idxd_zero]; exact ⟨hi, rfl⟩
  · exact hneg

/-- C1 amendment, core: under the proximity hypothesis the total output
energy equals the total input energy. -/
theorem sum_get_new_energies (vs : List Voxel) (H : CloseEnough vs) :
    (get_new_energies vs).sum = (vs.map Voxel.E).sum := by
  set Ng := (idxd 0 vs).filter (fun p => p.2.negli) with hNg
  set Sg := (idxd 0 vs).filter (fun p => !p.2.negli) with hSg
  have hSgNodup : (Sg.map Prod.fst).Nodup := by
    have hpw : Sg.Pairwise (fun p q => p.1 < q.1) :=
      List.Pairwise.sublist (List.filter_sublist _) (idxd_pairwise_fst 0 vs)
    have : (Sg.map Prod.fst).Pairwise (· < ·) := List.pairwise_map.mpr hpw
    exact List.Pairwise.imp Nat.ne_of_lt this
  have hout : (get_new_energies vs).sum
      = ((Ng.map (fun _ => (0:ℚ))).sum
          + ((Sg.map (fun p => p.2.E + routedE vs p.1)).sum)) := by
    rw [get_new_energies_eq_map]
    exact sum_map_ite_split (idxd 0 vs) (fun p => p.2.negli)
      (fun _ => 0) (fun p => p.2.E + routedE vs p.1)
  have hzero : (Ng.map (fun _ => (0:ℚ))).sum = 0 := by
    simp
  have hsplit : (Sg.map (fun p => p.2.E + routedE vs p.1)).sum
      = (Sg.map (fun p => p.2.E)).sum + (Sg.map (fun p => routedE vs p.1)).sum :=
    List.sum_map_add
  have hfiber : (Sg.map (fun p => routedE vs p.1)).sum
      = ((negl_neig_pairs vs).map (fun q => (vget vs q.1).E)).sum := by
    apply sum_fiberwise (negl_neig_pairs vs) Sg hSgNodup
    intro q hq
    rcases negl_neig_pairs_mem vs q hq with ⟨hqlen, hqneg, hqc⟩
    rcases closestIndex_spec_of_close vs H q.1 hqlen hqneg with ⟨hclen, _, hcsig, _, _⟩
    refine ⟨(closestIndex vs q.1, vget vs (closestIndex vs q.1)), ?_, by rw [hqc]⟩
    rw [hSg]
    refine List.mem_filter.mpr ⟨?_, ?_⟩
    · rw [mem_idxd_zero]; exact ⟨hclen, rfl⟩
    · simpa using hcsig
  have hroutes : ((negl_neig_pairs vs).map (fun q => (vget vs q.1).E)).sum
      = (Ng.map (fun p => p.2.E)).sum := by
    rw [negl_neig_pairs, List.map_map, ← hNg]
    apply congrArg List.sum
    apply List.map_congr_left
    intro r hr
    rcases List.mem_filter.mp hr with ⟨hridx, _⟩
    rcases (mem_idxd_zero vs r).mp hridx with ⟨_, hrv⟩
    simp [Function.comp, ← hrv]
  have hin : (vs.map Voxel.E).sum
      = (Ng.map (fun p => p.2.E)).sum + (Sg.map (fun p => p.2.E)).sum := by
    have h1 : vs.map Voxel.E = (idxd 0 vs).map (fun p => p.2.E) := by
      conv_lhs => rw [← idxd_map_snd 0 vs]
      rw [List.map_map]
      rfl
    rw [h1]
    exact sum_map_filter_split (idxd 0 vs) (fun p => p.2.negli) (fun p => p.2.E)
  rw [hout, hzero, zero_add, hsplit, hfiber, hroutes, hin]
  ring

/-! ## Uniqueness of routing -/

theorem filter_fst_eq_of_pairwise (l : List (ℕ × Voxel))
    (hl : l.Pairwise (fun p q => p.1 < q.1)) (x : ℕ × Voxel) (hx : x ∈ l) :
    l.filter (fun r => r.1 == x.1) = [x] := by
  induction l with
  | nil => exact absurd hx (List.not_mem_nil x)
  | cons y l' ih =>
    rcases List.pairwise_cons.mp hl with ⟨hy, hl'⟩
    rcases List.mem_cons.mp hx with rfl | hx'
    · have hnil : l'.filter (fun r => r.1 == x.1) = [] := by
        rw [List.filter_eq_nil_iff]
        intro r hr
        have : x.1 < r.1 := hy r hr
        simp only [beq_iff_eq]
        omega
      simp [List.filter_cons, hnil]
    · have hlt : y.1 < x.1 := hy x hx'
      have hne : (y.1 == x.1) = false := by
        simp only [beq_eq_false_iff_ne, ne_eq]
        omega
      simp only [List.filter_cons, hne, Bool.false_eq_true, if_false]
      exact ih hl' hx'

theorem negl_neig_pairs_filter_fst (vs : List Voxel) (i : ℕ) (hi : i < vs.length)
    (hneg : (vget vs i).negli = true) :
    (negl_neig_pairs vs).filter (fun q => q.1 == i) = [(i, closestIndex vs i)] := by
  rw [negl_neig_pairs, List.filter_map]
  have hpw : ((idxd 0 vs).filter (fun p => p.2.negli)).Pairwise (fun p q => p.1 < q.1) :=
    List.Pairwise.sublist (List.filter_sublist _) (idxd_pairwise_fst 0 vs)
  have hx : ((i : ℕ), vget vs i) ∈ (idxd 0 vs).filter (fun p => p.2.negli) := by
    refine List.mem_filter.mpr ⟨?_, hneg⟩
    rw [mem_idxd_zero]; exact ⟨hi, rfl⟩
  have hfe : ((idxd 0 vs).filter (fun p => p.2.negli)).filter
        ((fun q => q.1 == i) ∘ (fun p => (p.1, closestIndex vs p.1)))
      = ((idxd 0 vs).filter (fun p => p.2.negli)).filter (fun p => p.1 == i) := by
    rfl
  rw [hfe, filter_fst_eq_of_pairwise _ hpw ((i : ℕ), vget vs i) hx]
  rfl

/-! ## Claims about edge-case behaviour of get_new_energies -/

theorem snd_mem_of_mem_idxd (vs : List Voxel) (p : ℕ × Voxel) (hp : p ∈ idxd 0 vs) :
    p.2 ∈ vs := by
  rcases (mem_idxd_zero vs p).mp hp with ⟨hlen, hv⟩
  rw [hv, vget_eq_getElem vs p.1 hlen]
  exact List.getElem_mem hlen

theorem negl_neig_pairs_eq_nil (vs : List Voxel) (h : ∀ v ∈ vs, v.negli = false) :
    negl_neig_pairs vs = [] := by
  rw [negl_neig_pairs, List.map_eq_nil_iff, List.filter_eq_nil_iff]
  intro p hp
  rw [h p.2 (snd_mem_of_mem_idxd vs p hp)]
  simp

/-- C8: if no input voxel is negligible, get_new_energies returns the
input energies, in order. -/
theorem get_new_energies_no_negligible (vs : List Voxel)
    (h : ∀ v ∈ vs, v.negli = false) :
    get_new_energies vs = vs.map Voxel.E := by
  rw [get_new_energies_eq_map]
  have hmap : (idxd 0 vs).map (fun p => if p.2.negli then 0 else p.2.E + routedE vs p.1)
      = (idxd 0 vs).map (fun p => p.2.E) := by
    apply List.map_congr_left
    intro p hp
    have hsig : p.2.negli = false := h p.2 (snd_mem_of_mem_idxd vs p hp)
    have hroute : routedE vs p.1 = 0 := by
      rw [routedE, negl_neig_pairs_eq_nil vs h]
      simp
    simp [hsig, hroute]
  rw [hmap]
  conv_rhs => rw [← idxd_map_snd 0 vs]
  rw [List.map_map]
  rfl

/-- C8 witness input: an all-significant three-voxel event. -/
theorem get_new_energies_no_negligible_witness :
    (∀ v ∈ ([⟨0,0,0,5,false⟩, ⟨1,0,0,1,false⟩, ⟨10,0,0,3,false⟩] : List Voxel),
      v.negli = false)
    ∧ get_new_energies [⟨0,0,0,5,false⟩, ⟨1,0,0,1,false⟩, ⟨10,0,0,3,false⟩]
        = ([⟨0,0,0,5,false⟩, ⟨1,0,0,1,false⟩, ⟨10,0,0,3,false⟩] : List Voxel).map Voxel.E := by
  exact ⟨by decide, get_new_energies_no_negligible _ (by decide)⟩

/-- C10: on a non-empty, all-negligible event, get_new_energies returns
(without error, being a total function) a list of zeros of the input
length, so the whole event energy is dropped. -/
theorem get_new_energies_all_negligible (vs : List Voxel) (hne : vs ≠ [])
    (h : ∀ v ∈ vs, v.negli = true) :
    get_new_energies vs = List.replicate vs.length 0
      ∧ (get_new_energies vs).sum = 0 := by
  have heq : get_new_energies vs = List.replicate vs.length 0 := by
    rw [get_new_energies_eq_map]
    rw [List.eq_replicate_iff]
    constructor
    · rw [List.length_map, idxd_length]
    · intro b hb
      rcases List.mem_map.mp hb with ⟨p, hp, hpb⟩
      have hneg : p.2.negli = true := h p.2 (snd_mem_of_mem_idxd vs p hp)
      rw [← hpb, if_pos hneg]
  refine ⟨heq, ?_⟩
  rw [heq]
  simp

/-! ## Claims C1, C3, C4: energy redistribution -/

/-- C1 (amended): under the proximity hypothesis CloseEnough (every
negligible voxel has a non-negligible voxel strictly within the 1000
bound), the sum of the output energies equals the sum of the input
energies. -/
theorem energy_conservation_of_close (vs : List Voxel) (H : CloseEnough vs) :
    (get_new_energies vs).sum = (vs.map Voxel.E).sum :=
  sum_get_new_energies vs H

/-- C1 counterexample: a negligible voxel 2000 length units away from the
only non-negligible voxel.  The source's min_dist starts at 1000, so no
neighbour is found and the energy 5 disappears: output sum 3, input
sum 8. -/
theorem energy_not_conserved_far_voxel :
    (get_new_energies [⟨0,0,0,5,true⟩, ⟨2000,0,0,3,false⟩]).sum
      ≠ (([⟨0,0,0,5,true⟩, ⟨2000,0,0,3,false⟩] : List Voxel).map Voxel.E).sum := by
  norm_num [get_new_energies, negl_neig_pairs, closestIndex, closestAux, idxd, vget,
    sqDist]

/-- C1 witness: the spec's Example 1 satisfies the proximity hypothesis
and conserves energy. -/
theorem energy_conservation_of_close_witness :
    CloseEnough [⟨0,0,0,5,false⟩, ⟨1,0,0,1,true⟩, ⟨10,0,0,3,false⟩]
    ∧ (get_new_energies [⟨0,0,0,5,false⟩, ⟨1,0,0,1,true⟩, ⟨10,0,0,3,false⟩]).sum
        = (([⟨0,0,0,5,false⟩, ⟨1,0,0,1,true⟩, ⟨10,0,0,3,false⟩] : List Voxel).map Voxel.E).sum := by
  have hH : CloseEnough [⟨0,0,0,5,false⟩, ⟨1,0,0,1,true⟩, ⟨10,0,0,3,false⟩] := by
    intro i hi hneg
    have hi3 : i < 3 := by simpa using hi
    interval_cases i
    · exact absurd hneg (by decide)
    · exact ⟨0, by norm_num, by decide, by norm_num [vget, sqDist]⟩
    · exact absurd hneg (by decide)
  exact ⟨hH, energy_conservation_of_close _ hH⟩

/-- C3 (amended): a negligible voxel with some non-negligible voxel
strictly within the 1000 bound is routed to a non-negligible voxel at
minimal distance among all non-negligible voxels, and the target's
output energy is its own energy plus the routed energies, the routed
pair (i, closest) being among those summed. -/
theorem routes_to_nearest_significant (vs : List Voxel) (i : ℕ) (hi : i < vs.length)
    (hneg : (vget vs i).negli = true)
    (hex : ∃ j, j < vs.length ∧ (vget vs j).negli = false ∧
      sqDist (vget vs i) (vget vs j) < 1000000) :
    closestIndex vs i < vs.length
    ∧ (vget vs (closestIndex vs i)).negli = false
    ∧ (∀ j, j < vs.length → (vget vs j).negli = false →
        sqDist (vget vs i) (vget vs (closestIndex vs i)) ≤ sqDist (vget vs i) (vget vs j))
    ∧ (i, closestIndex vs i) ∈ negl_neig_pairs vs
    ∧ (get_new_energies vs).getD (closestIndex vs i) 0
        = (vget vs (closestIndex vs i)).E + routedE vs (closestIndex vs i)
    ∧ (i, closestIndex vs i)
        ∈ (negl_neig_pairs vs).filter (fun q => q.2 == closestIndex vs i) := by
  have hne : ∀ j, j < vs.length → (vget vs j).negli = false → j ≠ i := by
    intro j _ hjsig hji
    rw [hji, hneg] at hjsig
    exact Bool.true_eq_false.mp hjsig
  rcases hex with ⟨j, hjlen, hjsig, hjclose⟩
  rcases closestIndex_spec vs i ⟨j, hjlen, hne j hjlen hjsig, hjsig, hjclose⟩ with
    ⟨hclen, _, hcsig, _, hmin⟩
  have hmem : (i, closestIndex vs i) ∈ negl_neig_pairs vs :=
    mem_negl_neig_pairs vs i hi hneg
  refine ⟨hclen, hcsig, ?_, hmem, ?_, ?_⟩
  · intro k hklen hksig
    exact hmin k hklen (hne k hklen hksig) hksig
  · rw [get_new_energies_getD vs _ hclen, if_neg (by rw [hcsig]; exact Bool.false_ne_true),
      routedE]
  · exact List.mem_filter.mpr ⟨hmem, by simp⟩

/-- C3 counterexample: with the negligible voxel 2000 away from the only
non-negligible voxel, no non-negligible voxel receives its energy — in
particular not the minimal-distance one the claim designates. -/
theorem no_routing_beyond_bound :
    ¬ ∃ j, j < 2 ∧ (vget [⟨0,0,0,5,true⟩, ⟨2000,0,0,3,false⟩] j).negli = false
      ∧ (get_new_energies [⟨0,0,0,5,true⟩, ⟨2000,0,0,3,false⟩]).getD j 0
          = (vget [⟨0,0,0,5,true⟩, ⟨2000,0,0,3,false⟩] j).E
            + (vget [⟨0,0,0,5,true⟩, ⟨2000,0,0,3,false⟩] 0).E := by
  rintro ⟨j, hj, hsig, heq⟩
  interval_cases j
  · exact absurd hsig (by decide)
  · norm_num [get_new_energies, negl_neig_pairs, closestIndex, closestAux, idxd, vget,
      sqDist] at heq

/-- C3 witness: in the spec's Example 1, voxel B (index 1, negligible)
is routed to voxel A (index 0), the nearest significant voxel. -/
theorem routes_to_nearest_significant_witness :
    (1 < ([⟨0,0,0,5,false⟩, ⟨1,0,0,1,true⟩, ⟨10,0,0,3,false⟩] : List Voxel).length
      ∧ (vget [⟨0,0,0,5,false⟩, ⟨1,0,0,1,true⟩, ⟨10,0,0,3,false⟩] 1).negli = true
      ∧ (∃ j, j < ([⟨0,0,0,5,false⟩, ⟨1,0,0,1,true⟩, ⟨10,0,0,3,false⟩] : List Voxel).length
          ∧ (vget [⟨0,0,0,5,false⟩, ⟨1,0,0,1,true⟩, ⟨10,0,0,3,false⟩] j).negli = false
          ∧ sqDist (vget [⟨0,0,0,5,false⟩, ⟨1,0,0,1,true⟩, ⟨10,0,0,3,false⟩] 1)
              (vget [⟨0,0,0,5,false⟩, ⟨1,0,0,1,true⟩, ⟨10,0,0,3,false⟩] j) < 1000000))
    ∧ (vget [⟨0,0,0,5,false⟩, ⟨1,0,0,1,true⟩, ⟨10,0,0,3,false⟩]
        (closestIndex [⟨0,0,0,5,false⟩, ⟨1,0,0,1,true⟩, ⟨10,0,0,3,false⟩] 1)).negli = false := by
  have hex : ∃ j, j < ([⟨0,0,0,5,false⟩, ⟨1,0,0,1,true⟩, ⟨10,0,0,3,false⟩] : List Voxel).length
      ∧ (vget [⟨0,0,0,5,false⟩, ⟨1,0,0,1,true⟩, ⟨10,0,0,3,false⟩] j).negli = false
      ∧ sqDist (vget [⟨0,0,0,5,false⟩, ⟨1,0,0,1,true⟩, ⟨10,0,0,3,false⟩] 1)
          (vget [⟨0,0,0,5,false⟩, ⟨1,0,0,1,true⟩, ⟨10,0,0,3,false⟩] j) < 1000000 :=
    ⟨0, by norm_num, by decide, by norm_num [vget, sqDist]⟩
  exact ⟨⟨by norm_num, by decide, hex⟩,
    (routes_to_nearest_significant _ 1 (by norm_num) (by decide) hex).2.1⟩

/-- C4 (amended): every negligible voxel's output energy is exactly 0,
unconditionally; and under the proximity hypothesis each negligible
voxel is routed exactly once (it appears in exactly one pair, whose
target is the unique non-negligible voxel it is paired with), and that
target's output energy is its own energy plus the routed energies. -/
theorem negligible_zero_and_unique_routing (vs : List Voxel) :
    (∀ i, i < vs.length → (vget vs i).negli = true →
      (get_new_energies vs).getD i 0 = 0)
    ∧ (CloseEnough vs → ∀ i, i < vs.length → (vget vs i).negli = true →
        (∃! j, j < vs.length ∧ (vget vs j).negli = false ∧ (i, j) ∈ negl_neig_pairs vs)
        ∧ (negl_neig_pairs vs).filter (fun q => q.1 == i) = [(i, closestIndex vs i)]
        ∧ (get_new_energies vs).getD (closestIndex vs i) 0
            = (vget vs (closestIndex vs i)).E + routedE vs (closestIndex vs i)) := by
  constructor
  · intro i hi hneg
    rw [get_new_energies_getD vs i hi, if_pos hneg]
  · intro H i hi hneg
    rcases closestIndex_spec_of_close vs H i hi hneg with ⟨hclen, _, hcsig, _, _⟩
    refine ⟨⟨closestIndex vs i, ⟨hclen, hcsig, mem_negl_neig_pairs vs i hi hneg⟩, ?_⟩,
      negl_neig_pairs_filter_fst vs i hi hneg, ?_⟩
    · rintro j ⟨_, _, hjmem⟩
      exact (negl_neig_pairs_mem vs (i, j) hjmem).2.2
    · rw [get_new_energies_getD vs _ hclen,
        if_neg (by rw [hcsig]; exact Bool.false_ne_true), routedE]

/-- C4 counterexample: a single all-negligible voxel.  Its output energy
is 0, but its original energy 5 is added to no non-negligible voxel —
none exists — contradicting "exactly one". -/
theorem negligible_energy_dropped_all_negligible :
    get_new_energies [⟨0,0,0,5,true⟩] = [0]
    ∧ ¬ ∃ j, j < 1 ∧ (vget [⟨0,0,0,5,true⟩] j).negli = false := by
  constructor
  · norm_num [get_new_energies, negl_neig_pairs, closestIndex, closestAux, idxd, vget,
      sqDist]
  · rintro ⟨j, hj, hsig⟩
    interval_cases j
    exact absurd hsig (by decide)

/-- C4 witness: in the spec's Example 1 the negligible voxel (index 1)
has output energy 0 and a unique non-negligible routing target. -/
theorem negligible_zero_and_unique_routing_witness :
    (get_new_energies [⟨0,0,0,5,false⟩, ⟨1,0,0,1,true⟩, ⟨10,0,0,3,false⟩]).getD 1 0 = 0
    ∧ (∃! j, j < ([⟨0,0,0,5,false⟩, ⟨1,0,0,1,true⟩, ⟨10,0,0,3,false⟩] : List Voxel).length
        ∧ (vget [⟨0,0,0,5,false⟩, ⟨1,0,0,1,true⟩, ⟨10,0,0,3,false⟩] j).negli = false
        ∧ (1, j) ∈ negl_neig_pairs [⟨0,0,0,5,false⟩, ⟨1,0,0,1,true⟩, ⟨10,0,0,3,false⟩]) := by
  have hH : CloseEnough [⟨0,0,0,5,false⟩, ⟨1,0,0,1,true⟩, ⟨10,0,0,3,false⟩] := by
    intro i hi hneg
    have hi3 : i < 3 := by simpa using hi
    interval_cases i
    · exact absurd hneg (by decide)
    · exact ⟨0, by norm_num, by decide, by norm_num [vget, sqDist]⟩
    · exact absurd hneg (by decide)
  have h := negligible_zero_and_unique_routing
    [⟨0,0,0,5,false⟩, ⟨1,0,0,1,true⟩, ⟨10,0,0,3,false⟩]
  exact ⟨h.1 1 (by norm_num) (by decide), (h.2 hH 1 (by norm_num) (by decide)).1⟩

/-- C10 witness: a two-voxel, all-negligible event yields [0, 0] and
total output 0. -/
theorem get_new_energies_all_negligible_witness :
    (([⟨0,0,0,5,true⟩, ⟨1,0,0,2,true⟩] : List Voxel) ≠ []
      ∧ ∀ v ∈ ([⟨0,0,0,5,true⟩, ⟨1,0,0,2,true⟩] : List Voxel), v.negli = true)
    ∧ (get_new_energies [⟨0,0,0,5,true⟩, ⟨1,0,0,2,true⟩]
        = List.replicate ([⟨0,0,0,5,true⟩, ⟨1,0,0,2,true⟩] : List Voxel).length 0
      ∧ (get_new_energies [⟨0,0,0,5,true⟩, ⟨1,0,0,2,true⟩]).sum = 0) :=
  ⟨⟨by decide, by decide⟩,
    get_new_energies_all_negligible _ (by decide) (by decide)⟩

/-! ## Claims C2, C7: voxel-track association -/

theorem trackHasPos_iff (t : Track) (pos : ℚ × ℚ × ℚ) :
    trackHasPos t pos = true ↔ ∃ nd ∈ t, (nd.X, nd.Y, nd.Z) = pos := by
  simp [trackHasPos]

theorem scanTracks_some_iff (pos : ℚ × ℚ × ℚ) (ts : List Track) (n j : ℕ) :
    scanTracks pos ts n = some j ↔
      ∃ k, k < ts.length ∧ j = n + k ∧ trackHasPos (ts.getD k []) pos = true ∧
        ∀ m, m < k → trackHasPos (ts.getD m []) pos = false := by
  induction ts generalizing n with
  | nil => simp [scanTracks]
  | cons t ts' ih =>
    by_cases h : trackHasPos t pos = true
    · rw [scanTracks, if_pos h]
      constructor
      · rintro h'
        refine ⟨0, by simp, by simpa using (Option.some_inj.mp h').symm, by simpa using h, ?_⟩
        intro m hm
        exact absurd hm (Nat.not_lt_zero m)
      · rintro ⟨k, hk, hj, _, hmin⟩
        cases k with
        | zero => simp [hj]
        | succ k' =>
          have h0 : trackHasPos ((t :: ts').getD 0 []) pos = false :=
            hmin 0 (Nat.succ_pos k')
          rw [List.getD_cons_zero] at h0
          rw [h0] at h
          exact absurd h (by simp)
    · have hfalse : trackHasPos t pos = false := by simpa using h
      rw [scanTracks, if_neg h, ih (n + 1)]
      constructor
      · rintro ⟨k', hk', hj, hhas, hmin⟩
        refine ⟨k' + 1, by simpa using hk', by omega, by simpa using hhas, ?_⟩
        intro m hm
        cases m with
        | zero => simpa using hfalse
        | succ m' =>
          rw [List.getD_cons_succ]
          exact hmin m' (by omega)
      · rintro ⟨k, hk, hj, hhas, hmin⟩
        cases k with
        | zero =>
          rw [List.getD_cons_zero] at hhas
          rw [hhas] at hfalse
          exact absurd hfalse (by simp)
        | succ k' =>
          refine ⟨k', by simpa using hk, by omega, by simpa using hhas, ?_⟩
          intro m hm
          have := hmin (m + 1) (by omega)
          rwa [List.getD_cons_succ] at this

theorem relate_negligible (ts : List Track) (v : Voxel) (h : v.negli = true) :
    relate ts v = some none := by
  simp [relate, h]

theorem relate_significant_iff (ts : List Track) (v : Voxel) (j : ℕ)
    (h : v.negli = false) :
    relate ts v = some (some j) ↔
      j < ts.length
      ∧ (∃ nd ∈ ts.getD j [], (nd.X, nd.Y, nd.Z) = (v.X, v.Y, v.Z))
      ∧ ∀ m, m < j → ¬ ∃ nd ∈ ts.getD m [], (nd.X, nd.Y, nd.Z) = (v.X, v.Y, v.Z) := by
  rw [relate, if_pos h]
  constructor
  · intro heq
    rcases hscan : scanTracks (v.X, v.Y, v.Z) ts 0 with _ | j'
    · rw [hscan] at heq
      exact absurd heq (by simp)
    · rw [hscan] at heq
      have hj : j' = j := by simpa using heq
      rcases (scanTracks_some_iff _ ts 0 j').mp hscan with ⟨k, hk, hjk, hhas, hmin⟩
      have hkj : k = j := by omega
      subst hkj
      subst hj
      refine ⟨by omega, (trackHasPos_iff _ _).mp hhas, ?_⟩
      intro m hm hex
      have := hmin m hm
      rw [(trackHasPos_iff _ _).mpr hex] at this
      exact absurd this (by simp)
  · rintro ⟨hj, hhas, hmin⟩
    have hscan : scanTracks (v.X, v.Y, v.Z) ts 0 = some j := by
      rw [scanTracks_some_iff]
      refine ⟨j, hj, by omega, (trackHasPos_iff _ _).mpr hhas, ?_⟩
      intro m hm
      by_contra hcon
      have : trackHasPos (ts.getD m []) (v.X, v.Y, v.Z) = true := by
        cases htm : trackHasPos (ts.getD m []) (v.X, v.Y, v.Z) with
        | false => exact absurd htm hcon
        | true => rfl
      exact hmin m hm ((trackHasPos_iff _ _).mp this)
    rw [hscan]

/-- C7: negligible voxels always get the "no track" marker, and a
significant voxel's recorded entry is the index of the first track, in
the given order, containing a node at exactly the voxel's position. -/
theorem relations_first_match (vs : List Voxel) (ts : List Track) :
    get_voxel_track_relations vs ts = vs.filterMap (relate ts)
    ∧ (∀ v : Voxel, v.negli = true → relate ts v = some none)
    ∧ ∀ (v : Voxel) (j : ℕ), v.negli = false →
        (relate ts v = some (some j) ↔
          j < ts.length
          ∧ (∃ nd ∈ ts.getD j [], (nd.X, nd.Y, nd.Z) = (v.X, v.Y, v.Z))
          ∧ ∀ m, m < j → ¬ ∃ nd ∈ ts.getD m [], (nd.X, nd.Y, nd.Z) = (v.X, v.Y, v.Z)) :=
  ⟨rfl, fun v hv => relate_negligible ts v hv,
    fun v j hv => relate_significant_iff ts v j hv⟩

/-- C7 witness: the voxel at (1,2,3) is significant and matches tracks 1
and 2 but not track 0, so its entry is track 1 (first match wins); a
negligible voxel gets the marker. -/
theorem relations_first_match_witness :
    relate [[⟨5,5,5,1⟩], [⟨1,2,3,9⟩], [⟨1,2,3,7⟩]] ⟨1,2,3,4,false⟩ = some (some 1)
    ∧ relate [[⟨5,5,5,1⟩], [⟨1,2,3,9⟩], [⟨1,2,3,7⟩]] ⟨9,9,9,4,true⟩ = some none :=
  ⟨((relations_first_match [] [[⟨5,5,5,1⟩], [⟨1,2,3,9⟩], [⟨1,2,3,7⟩]]).2.2
      ⟨1,2,3,4,false⟩ 1 rfl).mpr (by decide),
    (relations_first_match [] [[⟨5,5,5,1⟩], [⟨1,2,3,9⟩], [⟨1,2,3,7⟩]]).2.1
      ⟨9,9,9,4,true⟩ rfl⟩

theorem scanTracks_ne_none (pos : ℚ × ℚ × ℚ) (ts : List Track)
    (h : ∃ t ∈ ts, trackHasPos t pos = true) (n : ℕ) :
    scanTracks pos ts n ≠ none := by
  induction ts generalizing n with
  | nil =>
    rcases h with ⟨t, ht, _⟩
    exact absurd ht (List.not_mem_nil t)
  | cons t ts' ih =>
    by_cases hht : trackHasPos t pos = true
    · rw [scanTracks, if_pos hht]
      simp
    · rw [scanTracks, if_neg hht]
      rcases h with ⟨t', ht', hhas⟩
      rcases List.mem_cons.mp ht' with rfl | ht''
      · exact absurd hhas hht
      · exact ih ⟨t', ht'', hhas⟩ (n + 1)

theorem relate_ne_none (ts : List Track) (v : Voxel)
    (h : v.negli = false → ∃ t ∈ ts, ∃ nd ∈ t, (nd.X, nd.Y, nd.Z) = (v.X, v.Y, v.Z)) :
    relate ts v ≠ none := by
  by_cases hneg : v.negli = true
  · rw [relate_negligible ts v hneg]
    simp
  · have hsig : v.negli = false := by
      cases hv : v.negli with
      | false => rfl
      | true => exact absurd hv hneg
    rcases h hsig with ⟨t, ht, nd, hnd, hpos⟩
    rw [relate, if_pos hsig]
    have hscan : scanTracks (v.X, v.Y, v.Z) ts 0 ≠ none :=
      scanTracks_ne_none _ ts ⟨t, ht, (trackHasPos_iff t _).mpr ⟨nd, hnd, hpos⟩⟩ 0
    rcases hs : scanTracks (v.X, v.Y, v.Z) ts 0 with _ | j
    · exact absurd hs hscan
    · simp

/-- C2 (amended): provided every significant voxel's position occurs
exactly at some node of some track, get_voxel_track_relations has one
entry per input voxel, in input order (so equal length): the entries are
exactly the per-voxel relations, each a track index or the "no track"
marker. -/
theorem relations_one_entry_per_voxel (vs : List Voxel) (ts : List Track)
    (H : ∀ v ∈ vs, v.negli = false →
      ∃ t ∈ ts, ∃ nd ∈ t, (nd.X, nd.Y, nd.Z) = (v.X, v.Y, v.Z)) :
    (get_voxel_track_relations vs ts).length = vs.length
    ∧ (get_voxel_track_relations vs ts).map some = vs.map (relate ts) := by
  have hmap : (vs.filterMap (relate ts)).map some = vs.map (relate ts) := by
    induction vs with
    | nil => rfl
    | cons v vs' ih =>
      have hv : relate ts v ≠ none :=
        relate_ne_none ts v (H v (List.mem_cons_self v vs'))
      rcases hr : relate ts v with _ | x
      · exact absurd hr hv
      · rw [List.filterMap_cons, hr, List.map_cons, List.map_cons, hr]
        rw [ih (fun w hw hsig => H w (List.mem_cons_of_mem v hw) hsig)]
  refine ⟨?_, hmap⟩
  have hlen : (vs.filterMap (relate ts)).length = vs.length := by
    have h2 := congrArg List.length hmap
    rwa [List.length_map, List.length_map] at h2
  exact hlen

/-- C2 counterexample: a single significant voxel and no tracks — the
source appends nothing for an unmatched significant voxel, so the output
is shorter than the voxel collection. -/
theorem relations_length_mismatch :
    (get_voxel_track_relations [⟨0,0,0,1,false⟩] []).length
      ≠ ([⟨0,0,0,1,false⟩] : List Voxel).length := by
  decide

/-- C2 witness: one significant voxel matching the only track plus one
negligible voxel — two entries for two voxels, in order. -/
theorem relations_one_entry_per_voxel_witness :
    (∀ v ∈ ([⟨1,2,3,4,false⟩, ⟨7,8,9,1,true⟩] : List Voxel), v.negli = false →
      ∃ t ∈ ([[⟨1,2,3,5⟩]] : List Track), ∃ nd ∈ t,
        (nd.X, nd.Y, nd.Z) = (v.X, v.Y, v.Z))
    ∧ ((get_voxel_track_relations [⟨1,2,3,4,false⟩, ⟨7,8,9,1,true⟩] [[⟨1,2,3,5⟩]]).length
        = ([⟨1,2,3,4,false⟩, ⟨7,8,9,1,true⟩] : List Voxel).length
      ∧ (get_voxel_track_relations [⟨1,2,3,4,false⟩, ⟨7,8,9,1,true⟩] [[⟨1,2,3,5⟩]]).map some
          = ([⟨1,2,3,4,false⟩, ⟨7,8,9,1,true⟩] : List Voxel).map
              (relate [[⟨1,2,3,5⟩]])) :=
  ⟨by decide, relations_one_entry_per_voxel _ _ (by decide)⟩

/-! ## Claims C5, C6, C9: track selection -/

theorem insertDesc_perm (x : ℚ × ℚ × Track) (l : List (ℚ × ℚ × Track)) :
    (insertDesc x l).Perm (x :: l) := by
  induction l with
  | nil => exact List.Perm.refl _
  | cons y ys ih =>
    by_cases h : y.1 ≤ x.1
    · rw [insertDesc, if_pos h]
    · rw [insertDesc, if_neg h]
      exact (ih.cons y).trans (List.Perm.swap x y ys)

theorem sortDesc_perm (l : List (ℚ × ℚ × Track)) : (sortDesc l).Perm l := by
  induction l with
  | nil => exact List.Perm.refl _
  | cons x xs ih =>
    exact (insertDesc_perm x (sortDesc xs)).trans (ih.cons x)

theorem mem_insertDesc (x a : ℚ × ℚ × Track) (l : List (ℚ × ℚ × Track)) :
    a ∈ insertDesc x l ↔ a = x ∨ a ∈ l := by
  rw [(insertDesc_perm x l).mem_iff]
  simp

theorem insertDesc_pairwise (x : ℚ × ℚ × Track) (l : List (ℚ × ℚ × Track))
    (hl : l.Pairwise (fun a b => b.1 ≤ a.1)) :
    (insertDesc x l).Pairwise (fun a b => b.1 ≤ a.1) := by
  induction l with
  | nil => simp [insertDesc]
  | cons y ys ih =>
    rcases List.pairwise_cons.mp hl with ⟨hy, hys⟩
    by_cases h : y.1 ≤ x.1
    · rw [insertDesc, if_pos h]
      refine List.pairwise_cons.mpr ⟨?_, hl⟩
      intro b hb
      rcases List.mem_cons.mp hb with rfl | hb'
      · exact h
      · exact le_trans (hy b hb') h
    · rw [insertDesc, if_neg h]
      refine List.pairwise_cons.mpr ⟨?_, ih hys⟩
      intro b hb
      rcases (mem_insertDesc x b ys).mp hb with rfl | hb'
      · exact le_of_not_le h
      · exact hy b hb'

theorem sortDesc_pairwise (l : List (ℚ × ℚ × Track)) :
    (sortDesc l).Pairwise (fun a b => b.1 ≤ a.1) := by
  induction l with
  | nil => exact List.Pairwise.nil
  | cons x xs ih => exact insertDesc_pairwise x (sortDesc xs) ih

theorem filter_insertDesc (x : ℚ × ℚ × Track) (l : List (ℚ × ℚ × Track)) (e : ℚ) :
    (insertDesc x l).filter (fun p => decide (p.1 = e))
      = if x.1 = e then x :: l.filter (fun p => decide (p.1 = e))
        else l.filter (fun p => decide (p.1 = e)) := by
  induction l with
  | nil =>
    by_cases hx : x.1 = e
    · simp [insertDesc, List.filter_cons, hx]
    · simp [insertDesc, List.filter_cons, hx]
  | cons y ys ih =>
    by_cases h : y.1 ≤ x.1
    · rw [insertDesc, if_pos h]
      by_cases hx : x.1 = e
      · simp [List.filter_cons, hx]
      · simp [List.filter_cons, hx]
    · have hyx : x.1 < y.1 := lt_of_not_le h
      rw [insertDesc, if_neg h]
      by_cases hx : x.1 = e
      · have hyd : (decide (y.1 = e)) = false := by
          simp only [decide_eq_false_iff_not]
          intro hy'
          rw [← hx] at hy'
          exact absurd hy' (ne_of_gt hyx)
        simp only [List.filter_cons, hyd, Bool.false_eq_true, if_false, ih, if_pos hx]
      · by_cases hy : y.1 = e
        · have hyd : (decide (y.1 = e)) = true := by simpa using hy
          simp only [List.filter_cons, hyd, if_true, ih, if_neg hx]
        · have hyd : (decide (y.1 = e)) = false := by simpa using hy
          simp only [List.filter_cons, hyd, Bool.false_eq_true, if_false, ih, if_neg hx]

theorem filter_sortDesc (l : List (ℚ × ℚ × Track)) (e : ℚ) :
    (sortDesc l).filter (fun p => decide (p.1 = e))
      = l.filter (fun p => decide (p.1 = e)) := by
  induction l with
  | nil => rfl
  | cons x xs ih =>
    rw [sortDesc, filter_insertDesc]
    by_cases hx : x.1 = e
    · rw [if_pos hx, ih, List.filter_cons, if_pos (by simpa using hx)]
    · rw [if_neg hx, ih, List.filter_cons, if_neg (by simpa using hx)]

/-- C5: every scored track returned by process_tracks has energy at
least the threshold (and carries its track's true energy), and every
input track absent from the output has energy strictly below the
threshold. -/
theorem process_tracks_threshold (tlen : Track → ℚ) (ts : List Track) (th : ℚ) :
    (∀ p ∈ process_tracks tlen ts th, th ≤ p.1 ∧ p.1 = trackE p.2.2)
    ∧ ∀ t ∈ ts, t ∉ (process_tracks tlen ts th).map (fun p => p.2.2) →
        trackE t < th := by
  have hperm := sortDesc_perm (survivingTracks tlen ts th)
  constructor
  · intro p hp
    have hp' : p ∈ survivingTracks tlen ts th := hperm.mem_iff.mp hp
    rcases List.mem_map.mp hp' with ⟨t, ht, hgt⟩
    rcases List.mem_filter.mp ht with ⟨_, hdec⟩
    rw [← hgt]
    exact ⟨of_decide_eq_true hdec, rfl⟩
  · intro t ht hnot
    by_contra hge
    have hth : th ≤ trackE t := le_of_not_lt hge
    have hmem : (trackE t, tlen t, t) ∈ survivingTracks tlen ts th :=
      List.mem_map_of_mem _ (List.mem_filter.mpr ⟨ht, by simpa using hth⟩)
    have hout : (trackE t, tlen t, t) ∈ process_tracks tlen ts th :=
      hperm.mem_iff.mpr hmem
    exact hnot (List.mem_map.mpr ⟨(trackE t, tlen t, t), hout, rfl⟩)

/-- C6: the output of process_tracks is sorted non-increasingly by
energy, and it is stable: for every energy value the output tuples with
that energy are exactly the surviving tuples with that energy, which in
turn are the threshold-passing input tracks with that energy in input
order. -/
theorem process_tracks_sorted_stable (tlen : Track → ℚ) (ts : List Track) (th : ℚ) :
    (process_tracks tlen ts th).Pairwise (fun a b => b.1 ≤ a.1)
    ∧ ∀ e : ℚ,
        (process_tracks tlen ts th).filter (fun p => decide (p.1 = e))
          = (survivingTracks tlen ts th).filter (fun p => decide (p.1 = e))
        ∧ (survivingTracks tlen ts th).filter (fun p => decide (p.1 = e))
            = ((ts.filter (fun t => decide (th ≤ trackE t))).filter
                (fun t => decide (trackE t = e))).map
                (fun t => (trackE t, tlen t, t)) := by
  refine ⟨sortDesc_pairwise _, fun e => ⟨filter_sortDesc _ e, ?_⟩⟩
  rw [survivingTracks, List.filter_map]
  rfl

/-- C9: when no track's energy reaches the threshold, process_tracks
returns the empty sequence (and, being a total function, no error). -/
theorem process_tracks_empty_below_threshold (tlen : Track → ℚ) (ts : List Track)
    (th : ℚ) (h : ∀ t ∈ ts, trackE t < th) :
    process_tracks tlen ts th = [] := by
  have hfil : ts.filter (fun t => decide (th ≤ trackE t)) = [] := by
    rw [List.filter_eq_nil_iff]
    intro t ht
    simpa using not_le.mpr (h t ht)
  rw [process_tracks, survivingTracks, hfil]
  rfl

/-- C5 witness: the spec's Example 2 — energies [50, 10, 80], threshold
20; the 50-track is in the output with its energy, and the excluded
10-track has energy below threshold. -/
theorem process_tracks_threshold_witness :
    ((50:ℚ), (0:ℚ), ([⟨0,0,0,50⟩] : Track)) ∈
        process_tracks (fun _ => 0) [[⟨0,0,0,50⟩], [⟨0,0,0,10⟩], [⟨0,0,0,80⟩]] 20
    ∧ (20 ≤ (50:ℚ) ∧ (50:ℚ) = trackE [⟨0,0,0,50⟩])
    ∧ trackE [⟨0,0,0,10⟩] < 20 := by
  have hev : process_tracks (fun _ => 0) [[⟨0,0,0,50⟩], [⟨0,0,0,10⟩], [⟨0,0,0,80⟩]] 20
      = [((80:ℚ), (0:ℚ), ([⟨0,0,0,80⟩] : Track)),
         ((50:ℚ), (0:ℚ), ([⟨0,0,0,50⟩] : Track))] := by
    norm_num [process_tracks, survivingTracks, sortDesc, insertDesc, trackE]
  have hmem : ((50:ℚ), (0:ℚ), ([⟨0,0,0,50⟩] : Track)) ∈
      process_tracks (fun _ => 0) [[⟨0,0,0,50⟩], [⟨0,0,0,10⟩], [⟨0,0,0,80⟩]] 20 := by
    rw [hev]
    norm_num
  have hnot : ([⟨0,0,0,10⟩] : Track) ∉
      (process_tracks (fun _ => 0) [[⟨0,0,0,50⟩], [⟨0,0,0,10⟩], [⟨0,0,0,80⟩]] 20).map
        (fun p => p.2.2) := by
    rw [hev]
    norm_num
  refine ⟨hmem,
    (process_tracks_threshold (fun _ => 0)
      [[⟨0,0,0,50⟩], [⟨0,0,0,10⟩], [⟨0,0,0,80⟩]] 20).1 _ hmem,
    (process_tracks_threshold (fun _ => 0)
      [[⟨0,0,0,50⟩], [⟨0,0,0,10⟩], [⟨0,0,0,80⟩]] 20).2 _ (by norm_num) hnot⟩

/-- C9 witness: the spec's Example 3 — energies [5, 8], threshold 20:
empty output. -/
theorem process_tracks_empty_below_threshold_witness :
    (∀ t ∈ ([[⟨0,0,0,5⟩], [⟨0,0,0,8⟩]] : List Track), trackE t < 20)
    ∧ process_tracks (fun _ => 0) [[⟨0,0,0,5⟩], [⟨0,0,0,8⟩]] 20 = [] := by
  have hh : ∀ t ∈ ([[⟨0,0,0,5⟩], [⟨0,0,0,8⟩]] : List Track), trackE t < 20 := by
    intro t ht
    rcases List.mem_cons.mp ht with rfl | ht'
    · norm_num [trackE]
    · rcases List.mem_cons.mp ht' with rfl | ht''
      · norm_num [trackE]
      · exact absurd ht'' (List.not_mem_nil t)
  exact ⟨hh, process_tracks_empty_below_threshold _ _ _ hh⟩
